import Mathlib

/-!
# Verification of the fakelib core (joshkunz/fakelib)

Shallow embedding of the deterministic library-generation core:

* the spreadsheet-style name encoder `letterName` and the padded component
  name `rlName` (library/library.go, `RepeatedLetters`, the variant pinned by
  `TestLetterName` in library/library_test.go; the identical encoder also
  appears in the `AlbumTagger` variant of the lineage),
* the attribute resolver `rlTag` (`RepeatedLetters.Tag`) and the default path
  function `artistAlbumTitle` (`ArtistAlbumTitle`),
* the `Song` byte stream (`Song.Size` / `Song.Read`),
* the bounds-checked `Library.PathAt` / `Library.SongAt`,
* the FUSE tree materializer with its inode-id allocator
  (filesystem/filesystem.go, `root.nextInodeID` / `root.OnAdd`).

Go `int` values cross the embedding boundary as `Int`; after the library's
bounds checks every index is non-negative, so the pure resolver core is
expressed over `Nat`, where Go's `/` and `%` on non-negative ints agree with
`Nat.div` / `Nat.mod`.  Byte values are modelled as `Nat`.  Fallible
operations (a Go panic: slice bounds, negative string index, division by
zero) are modelled with `Option`.

Recursive loops are embedded with an explicit fuel parameter so that every
definition stays kernel-computable; a proven unfolding lemma recovers the
loop's natural recurrence, and the fuel choice is shown to be irrelevant.
-/

namespace Fakelib

/-- The alphabet constant `letters = "ABCDEFGHIJKLMNOPQRSTUVWXYZ"`
(library/library.go). -/
def letters : List Char :=
  ['A', 'B', 'C', 'D', 'E', 'F', 'G', 'H', 'I', 'J', 'K', 'L', 'M',
   'N', 'O', 'P', 'Q', 'R', 'S', 'T', 'U', 'V', 'W', 'X', 'Y', 'Z']

/-- Fuelled form of `letterName`'s digit loop (library/library.go
`letterName`): append `letters[i % 26]`, set `i = i / 26`, stop when the
quotient is zero, else decrement it (`// Need to -1 here, since we want
26 -> AA not AB.`).  Digits are collected least-significant first.  The
fuel-0 fallback only fires for `i = 0`, where it agrees with the loop. -/
def letterDigitsGo : Nat → Nat → List Char
  | 0, i => [letters.getD (i % letters.length) 'A']
  | fuel + 1, i =>
    let c := letters.getD (i % letters.length) 'A'
    if i / letters.length = 0 then [c]
    else c :: letterDigitsGo fuel (i / letters.length - 1)

/-- The digit list collected by `letterName`'s loop, least-significant digit
first.  Fuel `i` always suffices because the loop variable strictly
decreases. -/
def letterDigits (i : Nat) : List Char := letterDigitsGo i i

/-- The function `letterName` (library/library.go): collect base-26 digits least
significant first, then reverse the collected letters. -/
def letterName (i : Nat) : String :=
  String.mk (letterDigits i).reverse

/-- Panic-aware form of the digit loop: the indexing `letters[i%len]` is a
checked access, mirroring Go's bounds-checked string indexing.  Used to state
that the encoder has no failure mode. -/
def letterDigitsCheckedGo : Nat → Nat → Option (List Char)
  | 0, i => (letters[i % letters.length]?).map ([·])
  | fuel + 1, i =>
    match letters[i % letters.length]? with
    | none => none
    | some c =>
      if i / letters.length = 0 then some [c]
      else (letterDigitsCheckedGo fuel (i / letters.length - 1)).map (c :: ·)

/-- Panic-aware digit loop with the canonical fuel. -/
def letterDigitsChecked (i : Nat) : Option (List Char) :=
  letterDigitsCheckedGo i i

/-- Panic-aware `letterName`. -/
def letterNameChecked (i : Nat) : Option String :=
  (letterDigitsChecked i).map fun ds => String.mk ds.reverse

/-- Go `strings.Repeat s n`: `s` concatenated `n` times (as a character list). -/
def repeatList (l : List Char) (n : Nat) : List Char :=
  match n with
  | 0 => []
  | n + 1 => l ++ repeatList l n

/-- Go `strings.Repeat` on strings. -/
def repeatStr (s : String) (n : Nat) : String :=
  String.mk (repeatList s.data n)

/-- The method `RepeatedLetters.name` (library/library.go, current variant): repeat the
encoded name `MinComponentLength` times, where an unset (zero) length
defaults to 1. -/
def rlName (minComponentLength : Nat) (i : Nat) : String :=
  let minLength := if minComponentLength = 0 then 1 else minComponentLength
  repeatStr (letterName i) minLength

/-- Verification helper: the numeric value of one encoder letter
(`'A' ↦ 0`, …, `'Z' ↦ 25`). -/
def charIdx (c : Char) : Nat := c.toNat - 65

/-- Verification helper: decode a least-significant-first digit list back to
the index it encodes — the left inverse of `letterDigits`. -/
def decodeDigits : List Char → Nat
  | [] => 0
  | c :: rest =>
    charIdx c + 26 * (match rest with
      | [] => 0
      | _ :: _ => decodeDigits rest + 1)

/-- Strict "shortlex" (length-major, then lexicographic) order on strings:
the order obtained by padding the shorter string on the left up to equal
length with a character ordered below the whole alphabet. -/
def shortlexLt (a b : String) : Prop :=
  a.length < b.length ∨ (a.length = b.length ∧ a < b)

/-- The structured tag fields set by `RepeatedLetters.Tag`
(`SetArtist`/`SetAlbum`/`SetTitle` and the track-number text frame).  The
binary id3v2 frame layout is external to the core and stays opaque. -/
structure Tag where
  artist : String
  album : String
  title : String
  track : Nat
deriving DecidableEq, Repr

/-- The method `RepeatedLetters.Tag` (library/library.go): fixed-radix decomposition of
the index into artist / album / track ordinals, each encoded with `name`;
tracks are numbered starting at 1. -/
def rlTag (tracksPerAlbum albumsPerArtist minComponentLength : Nat)
    (idx : Nat) : Tag :=
  let artist := rlName minComponentLength
    (idx / (tracksPerAlbum * albumsPerArtist))
  let album := rlName minComponentLength ((idx / tracksPerAlbum) % albumsPerArtist)
  let trackIdx := idx % tracksPerAlbum
  { artist := artist
    album := album
    title := rlName minComponentLength trackIdx
    track := trackIdx + 1 }

/-- Panic-aware `RepeatedLetters.name`: `strings.Repeat` itself cannot fail
for a non-negative count, so only the encoder's access is checked. -/
def rlNameChecked (minComponentLength : Nat) (i : Nat) : Option String :=
  let minLength := if minComponentLength = 0 then 1 else minComponentLength
  (letterNameChecked i).map fun s => repeatStr s minLength

/-- Panic-aware `RepeatedLetters.Tag`: Go division and modulus panic when the
divisor is zero, and the encoder's alphabet access is bounds-checked.  `none`
marks exactly the runtime panics the Go resolver could take. -/
def rlTagChecked (tracksPerAlbum albumsPerArtist minComponentLength : Nat)
    (idx : Nat) : Option Tag :=
  if tracksPerAlbum * albumsPerArtist = 0 then none
  else if tracksPerAlbum = 0 then none
  else if albumsPerArtist = 0 then none
  else
    (rlNameChecked minComponentLength
        (idx / (tracksPerAlbum * albumsPerArtist))).bind fun artist =>
    (rlNameChecked minComponentLength
        ((idx / tracksPerAlbum) % albumsPerArtist)).bind fun album =>
    (rlNameChecked minComponentLength (idx % tracksPerAlbum)).bind fun title =>
    some { artist := artist, album := album, title := title
           track := idx % tracksPerAlbum + 1 }

/-- The function `ArtistAlbumTitle` (library/library.go): `path.Join(artist, album,
title) + ".mp3"`.  For the generated names — nonempty strings over A–Z,
never containing `/` or `.` — `path.Join` is exactly the `/`-separated
concatenation, so the join is embedded directly. -/
def artistAlbumTitle (tag : Tag) : String :=
  tag.artist ++ "/" ++ tag.album ++ "/" ++ tag.title ++ ".mp3"

/-- The method `AlbumTagger.name` (the middle variant of the lineage): the minimum
length knob is expressed in total-path characters; divide by 3 (the number
of path components), rounding up, and repeat the encoded name that many
times.  A zero knob defaults to 3 (one repetition). -/
def albumTaggerName (minPathLength : Nat) (i : Nat) : String :=
  let minLength := if minPathLength = 0 then 3 else minPathLength
  let extension := minLength / 3 + (if minLength % 3 ≠ 0 then 1 else 0)
  repeatStr (letterName i) extension

/-- The type `Song` (library/library.go): a generated tag header plus the shared
golden payload; bytes modelled as `Nat`. -/
structure Song where
  tag : List Nat
  data : List Nat
deriving DecidableEq, Repr

/-- The method `Song.Size`: header length plus payload length. -/
def songSize (s : Song) : Int :=
  (s.tag.length : Int) + (s.data.length : Int)

/-- Go's `copy(dst, src)`: copies `min (len dst) (len src)` bytes into the
front of `dst`, leaving the rest of `dst` unchanged; returns the new
contents of `dst`. -/
def goCopy (dst src : List Nat) : List Nat :=
  src.take (min dst.length src.length) ++ dst.drop (min dst.length src.length)

/-- The byte count returned by Go's `copy(dst, src)`. -/
def goCopyLen (dst src : List Nat) : Nat :=
  min dst.length src.length

/-- The method `Song.Read` (library/library.go): fill `buf` from the logical
`[tag ++ data]` stream starting at byte `off`; the function returns the new
contents of the caller's buffer.  `none` marks the slice-bounds panic Go
takes when `s.tag[off:]` is evaluated with a negative `off`. -/
def songRead (s : Song) (buf : List Nat) (off : Int) : Option (List Nat) :=
  if songSize s ≤ off then some buf
  else if off < (s.tag.length : Int) then
    if 0 ≤ off then
      let rest := s.tag.drop off.toNat
      let read := goCopyLen buf rest
      let buf1 := goCopy buf rest
      some (buf1.take read ++ goCopy (buf1.drop read) s.data)
    else none
  else
    some (goCopy buf (s.data.drop (off - (s.tag.length : Int)).toNat))

/-- The type `Library` (library/library.go, current variant): track count, the two
pluggable strategy functions, the opaque external tag encoder
(`id3v2.Tag.WriteTo`), and the shared golden payload.  Indices appear as Go
`int` (here `Int`) at the API boundary; the strategies are invoked only on
bounds-checked indices, which are non-negative. -/
structure Library where
  tracks : Int
  tagger : Nat → Tag
  pather : Nat → Tag → String
  encodeTag : Tag → List Nat
  golden : List Nat

/-- The method `Library.PathAt`: the bounds check `idx < 0 || idx > l.Tracks-1`
rejects with an out-of-range error, else the pather is applied to the
tagger's fields. -/
def pathAt (l : Library) (idx : Int) : Option String :=
  if idx < 0 ∨ idx > l.tracks - 1 then none
  else some (l.pather idx.toNat (l.tagger idx.toNat))

/-- The method `Library.SongAt`: same bounds check; builds the tag, encodes it, and
returns a `Song` referencing the shared golden payload. -/
def songAt (l : Library) (idx : Int) : Option Song :=
  if idx < 0 ∨ idx > l.tracks - 1 then none
  else some { tag := l.encodeTag (l.tagger idx.toNat), data := l.golden }

/-- The library `New` returns (library/library.go): 1000 tracks, the
`RepeatedLetters` tagger with 10 tracks per album and 3 albums per artist
(unset minimum component length), and the `ArtistAlbumTitle` pather.  The
golden payload and the external tag encoder are the construction's inputs. -/
def newLibrary (encode : Tag → List Nat) (golden : List Nat) : Library :=
  { tracks := 1000
    tagger := rlTag 10 3 0
    pather := fun _ tag => artistAlbumTitle tag
    encodeTag := encode
    golden := golden }

/-! ## Tree materializer (filesystem/filesystem.go)

`root.OnAdd` walks indices `0..Tracks-1`; for each it splits the generated
path into directory components and a filename, descends from the root
creating any missing directory node with the next inode id, and finally
attaches the song node with the next inode id.  `root.nextInodeID` is a
counter that starts at 2 (ids -1 and 1 are reserved) and returns the
incremented value, so the first id issued is 3.  go-fuse child tables are
maps: `GetChild` looks a child up by name, `AddChild` with overwrite
replaces any existing entry; an association list with shadowing prepend
models that map. -/

/-- An in-memory inode: its stable id and its named children. -/
inductive INode where
  | node (id : Nat) (children : List (String × INode)) : INode
deriving Repr

/-- The go-fuse `Inode.GetChild`: look a child up by name. -/
def findChild (name : String) : List (String × INode) → Option INode
  | [] => none
  | (n, c) :: rest => if n = name then some c else findChild name rest

/-- Children of an inode. -/
def INode.children : INode → List (String × INode)
  | .node _ cs => cs

/-- Stable id of an inode. -/
def INode.ino : INode → Nat
  | .node i _ => i

/-- The `GetChild` lookup on an inode. -/
def INode.getChild (t : INode) (name : String) : Option INode :=
  findChild name t.children

/-- The go-fuse `AddChild` with overwrite: the prepended entry shadows any older entry
with the same name, giving map-update semantics. -/
def INode.setChild (t : INode) (name : String) (c : INode) : INode :=
  .node t.ino ((name, c) :: t.children)

/-- Result of inserting one track: the updated subtree, the counter after
the insertion, the inode ids issued (in issue order), and the id given to
the song leaf. -/
structure InsRes where
  tree : INode
  ctr : Nat
  issued : List Nat
  leafId : Nat
deriving Repr

/-- One `OnAdd` loop iteration below a node: descend through the directory
components, creating each missing directory with the next id
(`r.nextInodeID()` returns `ctr + 1` and advances the counter), then attach
the song leaf with the next id. -/
def insertTrack (t : INode) (comps : List String) (fname : String)
    (ctr : Nat) : InsRes :=
  match comps with
  | [] =>
    let leafId := ctr + 1
    { tree := t.setChild fname (.node leafId [])
      ctr := leafId
      issued := [leafId]
      leafId := leafId }
  | c :: rest =>
    match t.getChild c with
    | some child =>
      let r := insertTrack child rest fname ctr
      { tree := t.setChild c r.tree
        ctr := r.ctr
        issued := r.issued
        leafId := r.leafId }
    | none =>
      let dirId := ctr + 1
      let r := insertTrack (.node dirId []) rest fname dirId
      { tree := t.setChild c r.tree
        ctr := r.ctr
        issued := dirId :: r.issued
        leafId := r.leafId }

/-- State of the `OnAdd` walk: the root's tree, the id counter, the log of
issued ids, and the ids issued to song leaves. -/
structure BuildRes where
  tree : INode
  ctr : Nat
  issued : List Nat
  leafIds : List Nat
deriving Repr

/-- One iteration of the `OnAdd` loop for track `i`, with the library's
default tagger/pather: `path.Split` of
`artist/album/title.mp3` yields the directory components
`[artist, album]` (the empty component after the trailing slash is
skipped) and the filename `title.mp3` — the generated names are A–Z only,
so splitting the joined path recovers exactly the tag's components. -/
def buildStep (tracksPerAlbum albumsPerArtist minComponentLength : Nat)
    (st : BuildRes) (i : Nat) : BuildRes :=
  let tg := rlTag tracksPerAlbum albumsPerArtist minComponentLength i
  let r := insertTrack st.tree [tg.artist, tg.album] (tg.title ++ ".mp3") st.ctr
  { tree := r.tree
    ctr := r.ctr
    issued := st.issued ++ r.issued
    leafIds := st.leafIds ++ [r.leafId] }

/-- The walk `root.OnAdd` for a library of `n` tracks with the default strategies:
walk indices `0..n-1` from an empty root (the root inode itself carries the
transport's reserved id 1), with the id counter starting at 2. -/
def onAdd (tracksPerAlbum albumsPerArtist minComponentLength n : Nat) :
    BuildRes :=
  (List.range n).foldl (buildStep tracksPerAlbum albumsPerArtist
    minComponentLength) { tree := .node 1 [], ctr := 2, issued := [], leafIds := [] }

/-- The tree holds the two-level directory path `a/b`. -/
def hasDir2 (t : INode) (a b : String) : Prop :=
  ∃ c, t.getChild a = some c ∧ (c.getChild b).isSome

/-- Number of multiples of `d` in `[0, n)` — used to bound how many
directory inodes the walk can create. -/
def multCount (d n : Nat) : Nat :=
  if n = 0 then 0 else (n - 1) / d + 1

/-! ## Basic facts about the name encoder -/

theorem letters_length : letters.length = 26 := by decide

theorem letterDigitsGo_fuel_irrel (f₁ : Nat) :
    ∀ f₂ i, i ≤ f₁ → i ≤ f₂ → letterDigitsGo f₁ i = letterDigitsGo f₂ i := by
  induction f₁ with
  | zero =>
    intro f₂ i h1 _
    have hi : i = 0 := by omega
    subst hi
    cases f₂ <;> simp [letterDigitsGo]
  | succ f ih =>
    intro f₂ i h1 h2
    cases f₂ with
    | zero =>
      have hi : i = 0 := by omega
      subst hi
      simp [letterDigitsGo]
    | succ f' =>
      simp only [letterDigitsGo, letters_length]
      by_cases hq : i / 26 = 0
      · simp [hq]
      · rw [if_neg hq, if_neg hq, ih f' (i / 26 - 1) (by omega) (by omega)]

/-- The natural recurrence of the `letterName` digit loop:
take `i % 26` as the next least-significant letter; stop when the quotient
`i / 26` is zero, else continue from `i / 26 - 1`. -/
theorem letterDigits_eq (i : Nat) :
    letterDigits i =
      if i / 26 = 0 then [letters.getD (i % 26) 'A']
      else letters.getD (i % 26) 'A' :: letterDigits (i / 26 - 1) := by
  unfold letterDigits
  cases hi : i with
  | zero => simp [letterDigitsGo, letters_length]
  | succ n =>
    simp only [letterDigitsGo, letters_length]
    by_cases hq : (n + 1) / 26 = 0
    · simp [hq]
    · rw [if_neg hq, if_neg hq,
        letterDigitsGo_fuel_irrel n ((n + 1) / 26 - 1)
          ((n + 1) / 26 - 1) (by omega) (le_refl _)]

theorem letterDigits_ne_nil (i : Nat) : letterDigits i ≠ [] := by
  rw [letterDigits_eq]
  by_cases hq : i / 26 = 0 <;> simp [hq]

/-- The alphabet access inside the loop is always in bounds: the checked
loop agrees with the total one. -/
theorem letterDigitsCheckedGo_eq (f : Nat) :
    ∀ i, letterDigitsCheckedGo f i = some (letterDigitsGo f i) := by
  induction f with
  | zero =>
    intro i
    have hm : i % letters.length < letters.length := by
      rw [letters_length]; omega
    simp [letterDigitsCheckedGo, letterDigitsGo,
      List.getElem?_eq_getElem hm, List.getD_eq_getElem]
  | succ f ih =>
    intro i
    have hm : i % letters.length < letters.length := by
      rw [letters_length]; omega
    simp only [letterDigitsCheckedGo, letterDigitsGo,
      List.getElem?_eq_getElem hm, List.getD_eq_getElem]
    by_cases hq : i / letters.length = 0
    · simp [hq, List.getElem?_eq_getElem hm]
    · simp [hq, List.getElem?_eq_getElem hm, ih]

theorem letterNameChecked_eq (i : Nat) :
    letterNameChecked i = some (letterName i) := by
  simp [letterNameChecked, letterName, letterDigitsChecked, letterDigits,
    letterDigitsCheckedGo_eq]

/-- C1. The name encoder maps concrete indices to the spreadsheet-style
bijective base-26 strings — `Encode(0)="A"`, `Encode(25)="Z"`,
`Encode(26)="AA"`, `Encode(27)="AB"`, `Encode(51)="AZ"`, `Encode(676)="ZA"`,
`Encode(701)="ZZ"`, `Encode(702)="AAA"` — computed by repeatedly taking
`i mod 26` as the next least-significant letter, setting `i = i / 26 - 1`
while the quotient is nonzero, and reversing the collected letters at the
end. -/
theorem claim_C1_name_encoder :
    letterName 0 = "A" ∧ letterName 25 = "Z" ∧ letterName 26 = "AA" ∧
    letterName 27 = "AB" ∧ letterName 51 = "AZ" ∧ letterName 676 = "ZA" ∧
    letterName 701 = "ZZ" ∧ letterName 702 = "AAA" ∧
    ∀ i : Nat, letterName i = String.mk
      (if i / 26 = 0 then [letters.getD (i % 26) 'A']
       else letters.getD (i % 26) 'A' :: letterDigits (i / 26 - 1)).reverse := by
  refine ⟨by decide, by decide, by decide, by decide, by decide, by decide,
    by decide, by decide, fun i => ?_⟩
  rw [letterName, letterDigits_eq]

/-- C2. For every in-range index and shape parameters
`TracksPerAlbum ≥ 1`, `AlbumsPerArtist ≥ 1`, the default tag function
(`RepeatedLetters.Tag`) resolves to an (artist, album, title, track-number)
tuple with no failure: no division by zero, no out-of-range alphabet
access, no error — the panic-aware resolver returns exactly the pure
resolver's tuple. -/
theorem claim_C2_resolver_total (tracksPerAlbum albumsPerArtist
    minComponentLength tracks idx : Nat)
    (htpa : 1 ≤ tracksPerAlbum) (hapa : 1 ≤ albumsPerArtist)
    (hidx : idx < tracks) :
    rlTagChecked tracksPerAlbum albumsPerArtist minComponentLength idx =
      some (rlTag tracksPerAlbum albumsPerArtist minComponentLength idx) := by
  have hmul : tracksPerAlbum * albumsPerArtist ≠ 0 :=
    Nat.mul_ne_zero (by omega) (by omega)
  have h1 : tracksPerAlbum ≠ 0 := by omega
  have h2 : albumsPerArtist ≠ 0 := by omega
  simp [rlTagChecked, rlTag, rlNameChecked, rlName, hmul, h1, h2,
    letterNameChecked_eq]

/-- Witness for C2 at a concrete shape and index. -/
theorem claim_C2_witness :
    1 ≤ 10 ∧ 1 ≤ 3 ∧ 7 < 1000 ∧
      rlTagChecked 10 3 0 7 = some (rlTag 10 3 0 7) :=
  ⟨by decide, by decide, by decide,
    claim_C2_resolver_total 10 3 0 1000 7 (by decide) (by decide) (by decide)⟩

/-- C4. With `tracksPerAlbum = 10` and `albumsPerArtist = 3`, the
fixed-radix decomposition yields: index 0 → artist "A", album "A",
title "A", track 1; index 1 → title "B", track 2; index 10 → album "B",
title "A", track 1; index 30 → artist "B"; index 780 → artist "AA"; and
`PathAt` (over any golden payload and tag encoder) returns "A/A/A.mp3" for
index 0 and "AA/A/A.mp3" for index 780. -/
theorem claim_C4_concrete_decomposition :
    rlTag 10 3 0 0 = ⟨"A", "A", "A", 1⟩ ∧
    (rlTag 10 3 0 1).title = "B" ∧ (rlTag 10 3 0 1).track = 2 ∧
    (rlTag 10 3 0 10).album = "B" ∧ (rlTag 10 3 0 10).title = "A" ∧
    (rlTag 10 3 0 10).track = 1 ∧
    (rlTag 10 3 0 30).artist = "B" ∧
    (rlTag 10 3 0 780).artist = "AA" ∧
    ∀ (encode : Tag → List Nat) (golden : List Nat),
      pathAt (newLibrary encode golden) 0 = some "A/A/A.mp3" ∧
      pathAt (newLibrary encode golden) 780 = some "AA/A/A.mp3" := by
  refine ⟨by decide, by decide, by decide, by decide, by decide, by decide,
    by decide, by decide, fun encode golden => ⟨?_, ?_⟩⟩
  · simp only [pathAt, newLibrary]
    rw [if_neg (by decide)]
    decide
  · simp only [pathAt, newLibrary]
    rw [if_neg (by decide)]
    decide

theorem pathAt_isSome_iff (l : Library) (idx : Int) :
    (pathAt l idx).isSome ↔ 0 ≤ idx ∧ idx < l.tracks := by
  rw [pathAt]
  by_cases hc : idx < 0 ∨ idx > l.tracks - 1
  · rw [if_pos hc]
    simp only [Option.isSome_none, Bool.false_eq_true, false_iff]
    omega
  · rw [if_neg hc]
    simp only [Option.isSome_some, true_iff]
    omega

theorem songAt_isSome_iff (l : Library) (idx : Int) :
    (songAt l idx).isSome ↔ 0 ≤ idx ∧ idx < l.tracks := by
  rw [songAt]
  by_cases hc : idx < 0 ∨ idx > l.tracks - 1
  · rw [if_pos hc]
    simp only [Option.isSome_none, Bool.false_eq_true, false_iff]
    omega
  · rw [if_neg hc]
    simp only [Option.isSome_some, true_iff]
    omega

/-- C6. For every library, `PathAt` and `SongAt` fail exactly when the
index is outside `[0, trackCount)`; in particular `PathAt(-1)` and
`PathAt(trackCount)` fail while `PathAt(trackCount-1)` succeeds whenever
the library is nonempty.  Both functions are pure, so an out-of-range call
cannot affect any other index's result. -/
theorem claim_C6_bounds_check (l : Library) (idx : Int) :
    ((pathAt l idx).isSome ↔ 0 ≤ idx ∧ idx < l.tracks) ∧
    ((songAt l idx).isSome ↔ 0 ≤ idx ∧ idx < l.tracks) ∧
    pathAt l (-1) = none ∧ songAt l (-1) = none ∧
    pathAt l l.tracks = none ∧ songAt l l.tracks = none ∧
    (1 ≤ l.tracks →
      (pathAt l (l.tracks - 1)).isSome ∧ (songAt l (l.tracks - 1)).isSome) := by
  refine ⟨pathAt_isSome_iff l idx, songAt_isSome_iff l idx,
    ?_, ?_, ?_, ?_, fun h => ⟨?_, ?_⟩⟩
  · rw [← Option.not_isSome_iff_eq_none, pathAt_isSome_iff]
    omega
  · rw [← Option.not_isSome_iff_eq_none, songAt_isSome_iff]
    omega
  · rw [← Option.not_isSome_iff_eq_none, pathAt_isSome_iff]
    omega
  · rw [← Option.not_isSome_iff_eq_none, songAt_isSome_iff]
    omega
  · rw [pathAt_isSome_iff]
    omega
  · rw [songAt_isSome_iff]
    omega

/-- Witness for C6 on the default 1000-track library. -/
theorem claim_C6_witness :
    (pathAt (newLibrary (fun _ => []) []) 999).isSome ∧
    pathAt (newLibrary (fun _ => []) []) (-1) = none ∧
    pathAt (newLibrary (fun _ => []) []) 1000 = none := by
  have h := claim_C6_bounds_check (newLibrary (fun _ => []) []) 0
  exact ⟨(h.2.2.2.2.2.2 (by decide)).1, h.2.2.1, h.2.2.2.2.1⟩

/-- C8. For every index and shape parameters ≥ 1, the default tag function
produces a title equal to the padded encoding of the track ordinal
`idx % tracksPerAlbum` — the very component that ends the generated path
before the ".mp3" extension — just as artist and album are the padded
encodings of the artist and album ordinals. -/
theorem claim_C8_title_is_track_component (tracksPerAlbum albumsPerArtist
    minComponentLength idx : Nat)
    (htpa : 1 ≤ tracksPerAlbum) (hapa : 1 ≤ albumsPerArtist) :
    (rlTag tracksPerAlbum albumsPerArtist minComponentLength idx).title =
      rlName minComponentLength (idx % tracksPerAlbum) ∧
    (rlTag tracksPerAlbum albumsPerArtist minComponentLength idx).artist =
      rlName minComponentLength (idx / (tracksPerAlbum * albumsPerArtist)) ∧
    (rlTag tracksPerAlbum albumsPerArtist minComponentLength idx).album =
      rlName minComponentLength ((idx / tracksPerAlbum) % albumsPerArtist) ∧
    artistAlbumTitle (rlTag tracksPerAlbum albumsPerArtist
        minComponentLength idx) =
      (rlTag tracksPerAlbum albumsPerArtist minComponentLength idx).artist
        ++ "/" ++
      (rlTag tracksPerAlbum albumsPerArtist minComponentLength idx).album
        ++ "/" ++
      rlName minComponentLength (idx % tracksPerAlbum) ++ ".mp3" :=
  ⟨rfl, rfl, rfl, rfl⟩

/-- Witness for C8 at a concrete shape and index. -/
theorem claim_C8_witness :
    (rlTag 10 3 0 11).title = rlName 0 (11 % 10) ∧
    artistAlbumTitle (rlTag 10 3 0 11) =
      (rlTag 10 3 0 11).artist ++ "/" ++ (rlTag 10 3 0 11).album ++ "/" ++
        rlName 0 (11 % 10) ++ ".mp3" :=
  ⟨(claim_C8_title_is_track_component 10 3 0 11 (by decide) (by decide)).1,
   (claim_C8_title_is_track_component 10 3 0 11 (by decide) (by decide)).2.2.2⟩

/-- C9. The middle lineage variant's padding (`AlbumTagger.name`): the
encoded name is repeated `ceil(minLength / 3)` whole times — `(ml + 2) / 3`
in integer arithmetic — 3 being the number of path components, rounding up
on an inexact divide; a zero setting behaves as the default of 3, giving
exactly one repetition. -/
theorem claim_C9_pad_rounding (i : Nat) :
    albumTaggerName 0 i = repeatStr (letterName i) 1 ∧
    ∀ minPathLength, 1 ≤ minPathLength →
      albumTaggerName minPathLength i =
        repeatStr (letterName i) ((minPathLength + 2) / 3) := by
  constructor
  · simp [albumTaggerName]
  · intro ml hml
    have hne : ml ≠ 0 := by omega
    have hext : (ml / 3 + if ml % 3 = 0 then 0 else 1) = (ml + 2) / 3 := by
      by_cases h3 : ml % 3 = 0 <;> simp [h3] <;> omega
    simp only [albumTaggerName, hne, if_false, ite_not]
    rw [hext]

/-- Witness for C9 at a concrete inexact divide (`minLength = 4`). -/
theorem claim_C9_witness :
    albumTaggerName 4 27 = repeatStr (letterName 27) ((4 + 2) / 3) :=
  (claim_C9_pad_rounding 27).2 4 (by decide)

/-! ## Song reads -/

theorem goCopy_take (dst src : List Nat) :
    (goCopy dst src).take (goCopyLen dst src) = src.take (goCopyLen dst src) := by
  rw [goCopy, goCopyLen]
  exact List.take_left' (by simp only [List.length_take]; omega)

theorem goCopy_drop (dst src : List Nat) :
    (goCopy dst src).drop (goCopyLen dst src) = dst.drop (goCopyLen dst src) := by
  rw [goCopy, goCopyLen]
  exact List.drop_left' (by simp only [List.length_take]; omega)

theorem read_data_branch (tag data buf : List Nat) (o : Nat)
    (hT : tag.length ≤ o) :
    goCopy buf (data.drop (o - tag.length)) =
      ((tag ++ data).drop o).take
          (min buf.length (tag.length + data.length - o)) ++
        buf.drop (min buf.length (tag.length + data.length - o)) := by
  have hdrop : (tag ++ data).drop o = data.drop (o - tag.length) := by
    rw [List.drop_append_eq_append_drop, List.drop_eq_nil_of_le hT,
      List.nil_append]
  have hlen : data.length - (o - tag.length) = tag.length + data.length - o := by
    omega
  rw [hdrop, goCopy, List.length_drop, hlen]

theorem read_tag_branch (tag data buf : List Nat) (o : Nat)
    (ho : o < tag.length) :
    (goCopy buf (tag.drop o)).take (goCopyLen buf (tag.drop o)) ++
      goCopy ((goCopy buf (tag.drop o)).drop (goCopyLen buf (tag.drop o)))
        data =
    ((tag ++ data).drop o).take
        (min buf.length (tag.length + data.length - o)) ++
      buf.drop (min buf.length (tag.length + data.length - o)) := by
  rw [goCopy_take, goCopy_drop]
  have hsplit : (tag ++ data).drop o = tag.drop o ++ data := by
    rw [List.drop_append_eq_append_drop, Nat.sub_eq_zero_of_le (le_of_lt ho),
      List.drop_zero]
  rw [hsplit, goCopyLen, goCopy]
  simp only [List.length_drop]
  rcases Nat.le_total buf.length (tag.length - o) with hbl | hbl
  · have h1 : min buf.length (tag.length - o) = buf.length := by omega
    have h2 : min buf.length (tag.length + data.length - o) = buf.length := by
      omega
    rw [h1, h2, Nat.sub_self]
    have h4 : (List.drop o tag ++ data).take buf.length =
        (List.drop o tag).take buf.length := by
      rw [List.take_append_eq_append_take, List.length_drop,
        Nat.sub_eq_zero_of_le hbl, List.take_zero, List.append_nil]
    rw [h4]
    simp [List.drop_length]
  · have h1 : min buf.length (tag.length - o) = tag.length - o := by omega
    rw [h1]
    have h2 : (List.drop o tag).take (tag.length - o) = List.drop o tag := by
      apply List.take_of_length_le
      rw [List.length_drop]
    rw [h2]
    rcases Nat.le_total (buf.length - (tag.length - o)) data.length
      with hm | hm
    · have h3 : min (buf.length - (tag.length - o)) data.length =
          buf.length - (tag.length - o) := by omega
      have h4 : min buf.length (tag.length + data.length - o) =
          buf.length := by omega
      rw [h3, h4, List.drop_drop]
      have h5 : tag.length - o + (buf.length - (tag.length - o)) =
          buf.length := by omega
      rw [h5]
      have h6 : (List.drop o tag ++ data).take buf.length =
          List.drop o tag ++ data.take (buf.length - (tag.length - o)) := by
        rw [List.take_append_eq_append_take, List.length_drop]
        congr 1
        apply List.take_of_length_le
        rw [List.length_drop]
        omega
      rw [h6, List.append_assoc]
    · have h3 : min (buf.length - (tag.length - o)) data.length =
          data.length := by omega
      have h4 : min buf.length (tag.length + data.length - o) =
          tag.length + data.length - o := by omega
      rw [h3, h4, List.take_length, List.drop_drop]
      have h5 : tag.length - o + data.length =
          tag.length + data.length - o := by omega
      rw [h5]
      have h6 : (List.drop o tag ++ data).take
          (tag.length + data.length - o) = List.drop o tag ++ data := by
        apply List.take_of_length_le
        rw [List.length_append, List.length_drop]
        omega
      rw [h6, List.append_assoc]

/-- The full behaviour of `Song.Read` at a non-negative offset: exactly
`min (len buf) (Size - off)` bytes of the logical `tag ++ data` stream are
written to the front of the buffer and the rest of the buffer is left
unchanged. -/
theorem songRead_spec (s : Song) (buf : List Nat) (off : Int)
    (hoff : 0 ≤ off) :
    songRead s buf off =
      some (((s.tag ++ s.data).drop off.toNat).take
          (min buf.length ((songSize s - off).toNat)) ++
        buf.drop (min buf.length ((songSize s - off).toNat))) := by
  have hsz : songSize s = (s.tag.length : Int) + (s.data.length : Int) := rfl
  rw [songRead]
  by_cases h1 : songSize s ≤ off
  · rw [if_pos h1]
    have hk : (songSize s - off).toNat = 0 := by omega
    rw [hk]
    simp
  · rw [if_neg h1]
    have hmin : (songSize s - off).toNat =
        s.tag.length + s.data.length - off.toNat := by
      rw [hsz] at h1 ⊢
      omega
    by_cases h2 : off < (s.tag.length : Int)
    · rw [if_pos h2, if_pos hoff]
      have ho : off.toNat < s.tag.length := by omega
      rw [hmin]
      exact congrArg some (read_tag_branch s.tag s.data buf off.toNat ho)
    · rw [if_neg h2]
      have hT : s.tag.length ≤ off.toNat := by omega
      have hoT : (off - (s.tag.length : Int)).toNat =
          off.toNat - s.tag.length := by omega
      rw [hmin, hoT]
      exact congrArg some (read_data_branch s.tag s.data buf off.toNat hT)

/-- C10. For every Song, buffer and offset `0 ≤ off`, `Read` writes exactly
`min (len buf) (Size - off)` bytes of the logical `[header ++ payload]`
stream into the front of the buffer and leaves every byte beyond that
prefix unchanged; in particular for `off ≥ Size` (where the written prefix
is empty) the buffer is returned entirely unchanged — a short read never
zero-fills or otherwise touches the rest of the buffer. -/
theorem claim_C10_read_frame (s : Song) (buf : List Nat) (off : Int)
    (hoff : 0 ≤ off) :
    songRead s buf off =
      some (((s.tag ++ s.data).drop off.toNat).take
          (min buf.length ((songSize s - off).toNat)) ++
        buf.drop (min buf.length ((songSize s - off).toNat))) ∧
    (songSize s ≤ off → songRead s buf off = some buf) := by
  refine ⟨songRead_spec s buf off hoff, fun hend => ?_⟩
  rw [songRead, if_pos hend]

/-- Witness for C10 at a concrete song, buffer and offset. -/
theorem claim_C10_witness :
    songRead ⟨[1, 2], [9]⟩ [5, 5] 1 =
      some ((([1, 2] ++ [9]).drop 1).take (min 2 2) ++ [5, 5].drop (min 2 2)) ∧
    ((3 : Int) ≤ 1 → songRead ⟨[1, 2], [9]⟩ [5, 5] 1 = some [5, 5]) :=
  claim_C10_read_frame ⟨[1, 2], [9]⟩ [5, 5] 1 (by decide)

/-- The last element of a nonempty list is what remains when all but one
element is dropped. -/
theorem drop_length_pred {α : Type} (l : List α) (h : l ≠ []) :
    l.drop (l.length - 1) = [l.getLast h] := by
  obtain ⟨l', a, rfl⟩ := (List.eq_nil_or_concat l).resolve_left h
  have h2 : (l'.concat a).drop ((l'.concat a).length - 1) = [a] := by
    rw [List.concat_eq_append]
    have hl : (l' ++ [a]).length - 1 = l'.length := by simp
    rw [hl, List.drop_left]
  rw [h2, List.getLast_concat']

/-- Corrected C5.  For every Song with tag-header length `H` and payload
length `P`: `Size() = H + P`; a read at `0 ≤ off < H` copies the remaining
header bytes and then continues into the payload for any remaining buffer
space (in particular a 2-byte read at `H-1` yields the last header byte
followed by the first payload byte); a read at `H ≤ off < Size()` reads the
payload from `off - H`; a read at `off ≥ Size()` yields zero bytes and is
not an error; and `Read` has no error path for any NON-NEGATIVE offset
(a negative offset hits the Go slice-bounds panic in `s.tag[off:]`, see the
counterexample). -/
theorem claim_C5_song_composition :
    (∀ s : Song, songSize s = (s.tag.length : Int) + (s.data.length : Int)) ∧
    (∀ (s : Song) (buf : List Nat) (off : Int), 0 ≤ off →
      off < (s.tag.length : Int) →
      songRead s buf off =
        some ((s.tag.drop off.toNat ++ s.data).take
            (min buf.length ((songSize s - off).toNat)) ++
          buf.drop (min buf.length ((songSize s - off).toNat)))) ∧
    (∀ (s : Song) (h1 : s.tag ≠ []) (h2 : s.data ≠ []) (b0 b1 : Nat),
      songRead s [b0, b1] ((s.tag.length : Int) - 1) =
        some [s.tag.getLast h1, s.data.head h2]) ∧
    (∀ (s : Song) (buf : List Nat) (off : Int),
      (s.tag.length : Int) ≤ off → off < songSize s →
      songRead s buf off =
        some ((s.data.drop (off.toNat - s.tag.length)).take
            (min buf.length ((songSize s - off).toNat)) ++
          buf.drop (min buf.length ((songSize s - off).toNat)))) ∧
    (∀ (s : Song) (buf : List Nat) (off : Int), songSize s ≤ off →
      songRead s buf off = some buf) ∧
    (∀ (s : Song) (buf : List Nat) (off : Int), 0 ≤ off →
      (songRead s buf off).isSome) := by
  have hsz : ∀ s : Song, songSize s =
      (s.tag.length : Int) + (s.data.length : Int) := fun _ => rfl
  refine ⟨hsz, ?_, ?_, ?_, ?_, ?_⟩
  · intro s buf off h0 hH
    rw [songRead_spec s buf off h0]
    have hdrop : (s.tag ++ s.data).drop off.toNat =
        s.tag.drop off.toNat ++ s.data := by
      rw [List.drop_append_eq_append_drop,
        Nat.sub_eq_zero_of_le (by omega : off.toNat ≤ s.tag.length),
        List.drop_zero]
    rw [hdrop]
  · intro s h1 h2 b0 b1
    obtain ⟨tg, dt⟩ := s
    dsimp only at h1 h2 ⊢
    obtain ⟨d, ds, rfl⟩ := List.exists_cons_of_ne_nil h2
    have hlen : 1 ≤ tg.length := by
      have := List.length_pos.mpr h1
      omega
    have h0 : (0 : Int) ≤ (tg.length : Int) - 1 := by omega
    rw [songRead_spec ⟨tg, d :: ds⟩ [b0, b1] ((tg.length : Int) - 1) h0]
    have hto : ((tg.length : Int) - 1).toNat = tg.length - 1 := by omega
    have hmin : min ([b0, b1] : List Nat).length
        ((songSize ⟨tg, d :: ds⟩ - ((tg.length : Int) - 1)).toNat) = 2 := by
      simp only [songSize, List.length_cons, List.length_nil]
      omega
    rw [hto, hmin]
    have hdrop : (tg ++ d :: ds).drop (tg.length - 1) =
        tg.getLast h1 :: d :: ds := by
      rw [List.drop_append_eq_append_drop,
        Nat.sub_eq_zero_of_le (by omega : tg.length - 1 ≤ tg.length),
        List.drop_zero, drop_length_pred tg h1, List.singleton_append]
    rw [hdrop]
    simp
  · intro s buf off hH hS
    have h0 : (0 : Int) ≤ off := by
      have : (0 : Int) ≤ (s.tag.length : Int) := by positivity
      omega
    rw [songRead_spec s buf off h0]
    have hdrop : (s.tag ++ s.data).drop off.toNat =
        s.data.drop (off.toNat - s.tag.length) := by
      rw [List.drop_append_eq_append_drop,
        List.drop_eq_nil_of_le (by omega : s.tag.length ≤ off.toNat),
        List.nil_append]
    rw [hdrop]
  · intro s buf off hend
    rw [songRead, if_pos hend]
  · intro s buf off h0
    rw [songRead_spec s buf off h0]
    rfl

/-- Counterexample to C5 as stated: at the negative offset `-1` the Go
read `s.tag[off:]` panics (slice bounds out of range), so `Read` does have
an error path at an offset — refuting "no error path for ANY offset". -/
theorem claim_C5_counterexample :
    songRead ⟨[7], [9]⟩ [0, 0] (-1) = none := by decide

/-- Witness for the corrected C5 at a concrete song and offsets. -/
theorem claim_C5_witness :
    songRead ⟨[1, 2], [9]⟩ [5, 5] 1 = some [2, 9] ∧
    songRead ⟨[7], [9]⟩ [5, 5] 3 = some [5, 5] ∧
    (songRead ⟨[7], [9]⟩ [5, 5] 0).isSome := by
  have h := claim_C5_song_composition
  refine ⟨?_, h.2.2.2.2.1 ⟨[7], [9]⟩ [5, 5] 3 (by decide), ?_⟩
  · have h2 := h.2.2.1 ⟨[1, 2], [9]⟩ (by decide) (by decide) 5 5
    simpa using h2
  · exact h.2.2.2.2.2 ⟨[7], [9]⟩ [5, 5] 0 (by decide)

/-! ## Ordering and injectivity of the name encoder -/

theorem digit_lt_digit_fin : ∀ a b : Fin 26, a.val < b.val →
    letters.getD a.val 'A' < letters.getD b.val 'A' := by decide

theorem charIdx_digit_fin : ∀ a : Fin 26,
    charIdx (letters.getD a.val 'A') = a.val := by decide

theorem digit_lt_digit (a b : Nat) (hab : a < b) (hb : b < 26) :
    letters.getD a 'A' < letters.getD b 'A' :=
  digit_lt_digit_fin ⟨a, by omega⟩ ⟨b, hb⟩ hab

theorem charIdx_digit (a : Nat) (ha : a < 26) :
    charIdx (letters.getD a 'A') = a :=
  charIdx_digit_fin ⟨a, ha⟩

theorem decodeDigits_cons (c : Char) (l : List Char) (h : l ≠ []) :
    decodeDigits (c :: l) = charIdx c + 26 * (decodeDigits l + 1) := by
  obtain ⟨d, ds, rfl⟩ := List.exists_cons_of_ne_nil h
  rfl

/-- Lexicographic comparison of equal-length lists is preserved by
appending arbitrary suffixes. -/
theorem lex_append_of_length_eq {r : Char → Char → Prop} {p q : List Char}
    (h : List.Lex r p q) :
    p.length = q.length → ∀ s t, List.Lex r (p ++ s) (q ++ t) := by
  induction h with
  | nil => intro hl; simp at hl
  | @cons a l₁ l₂ h ih =>
    intro hl s t
    exact List.Lex.cons (ih (by simpa using hl) s t)
  | @rel a₁ l₁ a₂ l₂ h =>
    intro _ s t
    exact List.Lex.rel h

/-- Consecutive encoder outputs are strictly increasing in shortlex order,
at the level of the digit lists. -/
theorem letterDigits_shortlex (i : Nat) :
    (letterDigits i).length < (letterDigits (i + 1)).length ∨
      ((letterDigits i).length = (letterDigits (i + 1)).length ∧
        List.Lex (· < ·) (letterDigits i).reverse
          (letterDigits (i + 1)).reverse) := by
  induction i using Nat.strong_induction_on with
  | _ i ih =>
    rcases Nat.lt_or_ge (i % 26) 25 with hr | hr
    · have h1 : (i + 1) % 26 = i % 26 + 1 := by omega
      have h2 : (i + 1) / 26 = i / 26 := by omega
      have hdig : letters.getD (i % 26) 'A' < letters.getD (i % 26 + 1) 'A' :=
        digit_lt_digit (i % 26) (i % 26 + 1) (Nat.lt_succ_self _) (by omega)
      rw [letterDigits_eq i, letterDigits_eq (i + 1), h1, h2]
      by_cases hq : i / 26 = 0
      · rw [if_pos hq, if_pos hq]
        right
        refine ⟨rfl, ?_⟩
        simp only [List.reverse_cons, List.reverse_nil, List.nil_append]
        exact List.Lex.rel hdig
      · rw [if_neg hq, if_neg hq]
        right
        refine ⟨by simp, ?_⟩
        simp only [List.reverse_cons]
        exact List.Lex.append_left _ (List.Lex.rel hdig) _
    · have hr25 : i % 26 = 25 := by omega
      have h1 : (i + 1) % 26 = 0 := by omega
      have h2 : (i + 1) / 26 = i / 26 + 1 := by omega
      rw [letterDigits_eq i, letterDigits_eq (i + 1), h1, h2, hr25]
      rw [if_neg (by omega : ¬i / 26 + 1 = 0)]
      have h3 : i / 26 + 1 - 1 = i / 26 := by omega
      rw [h3]
      by_cases hq : i / 26 = 0
      · rw [if_pos hq, hq]
        left
        rw [letterDigits_eq 0]
        simp
      · rw [if_neg hq]
        have hih := ih (i / 26 - 1) (by omega)
        have hq1 : i / 26 - 1 + 1 = i / 26 := by omega
        rw [hq1] at hih
        rcases hih with hlen | ⟨hlen, hlex⟩
        · left
          simp only [List.length_cons]
          omega
        · right
          refine ⟨by simp only [List.length_cons]; omega, ?_⟩
          simp only [List.reverse_cons]
          exact lex_append_of_length_eq hlex (by simp [hlen]) _ _

/-- The decoder `decodeDigits` is a left inverse of the digit loop. -/
theorem decodeDigits_letterDigits (i : Nat) :
    decodeDigits (letterDigits i) = i := by
  induction i using Nat.strong_induction_on with
  | _ i ih =>
    rw [letterDigits_eq i]
    by_cases hq : i / 26 = 0
    · rw [if_pos hq]
      simp only [decodeDigits]
      rw [charIdx_digit (i % 26) (by omega)]
      omega
    · rw [if_neg hq]
      rw [decodeDigits_cons _ _ (letterDigits_ne_nil (i / 26 - 1)),
        ih (i / 26 - 1) (by omega), charIdx_digit (i % 26) (by omega)]
      omega

theorem letterName_injective : Function.Injective letterName := by
  intro a b hab
  have h1 : (letterDigits a).reverse = (letterDigits b).reverse :=
    congrArg String.data hab
  have h2 : letterDigits a = letterDigits b := by
    simpa using congrArg List.reverse h1
  have h3 := congrArg decodeDigits h2
  rwa [decodeDigits_letterDigits, decodeDigits_letterDigits] at h3

theorem repeatList_length (l : List Char) (n : Nat) :
    (repeatList l n).length = n * l.length := by
  induction n with
  | zero => simp [repeatList]
  | succ n ih =>
    simp only [repeatList, List.length_append, ih]
    ring

theorem repeatList_inj {a b : List Char} {n : Nat} (hn : 1 ≤ n)
    (h : repeatList a n = repeatList b n) : a = b := by
  have hlen : a.length = b.length := by
    have hl := congrArg List.length h
    rw [repeatList_length, repeatList_length] at hl
    exact Nat.eq_of_mul_eq_mul_left (by omega) hl
  cases n with
  | zero => omega
  | succ m =>
    simp only [repeatList] at h
    exact List.append_inj_left h hlen

theorem rlName_injective (ml : Nat) : Function.Injective (rlName ml) := by
  intro a b hab
  have hk : 1 ≤ (if ml = 0 then 1 else ml) := by
    split <;> omega
  simp only [rlName, repeatStr] at hab
  have h1 : repeatList (letterName a).data (if ml = 0 then 1 else ml) =
      repeatList (letterName b).data (if ml = 0 then 1 else ml) :=
    congrArg String.data hab
  have h2 : (letterName a).data = (letterName b).data := repeatList_inj hk h1
  have h3 : letterName a = letterName b := by
    have hmk := congrArg String.mk h2
    exact hmk
  exact letterName_injective h3

/-- C3. For every `i ≥ 0`, `Encode(i)` strictly precedes `Encode(i+1)` once
both are brought to equal length (shortlex order: by length, then
lexicographically), and for every fixed minimum-length configuration the
composition of `Encode` and `Pad` (the component name function) is
injective over the non-negative integers, so no two distinct indices ever
produce the same artist, album, or title string within the same
category. -/
theorem claim_C3_order_injective :
    (∀ i : Nat, shortlexLt (letterName i) (letterName (i + 1))) ∧
    ∀ minComponentLength : Nat,
      Function.Injective (rlName minComponentLength) := by
  refine ⟨fun i => ?_, rlName_injective⟩
  have h := letterDigits_shortlex i
  rcases h with hlen | ⟨hlen, hlex⟩
  · left
    simpa [letterName, String.length] using hlen
  · right
    constructor
    · simpa [letterName, String.length] using hlen
    · rw [String.lt_iff_toList_lt]
      exact hlex

/-- Witness for C3 at the single- to double-letter rollover and at a
concrete pair of distinct indices. -/
theorem claim_C3_witness :
    shortlexLt (letterName 25) (letterName 26) ∧ rlName 2 0 ≠ rlName 2 1 :=
  ⟨claim_C3_order_injective.1 25,
   fun h => Nat.zero_ne_one (claim_C3_order_injective.2 2 h)⟩

/-! ## The tree materializer's inode ids -/

theorem getChild_setChild_same (t : INode) (name : String) (c : INode) :
    (t.setChild name c).getChild name = some c := by
  cases t with
  | node i cs =>
    simp [INode.setChild, INode.getChild, INode.children, INode.ino,
      findChild]

theorem getChild_setChild_other (t : INode) (name other : String) (c : INode)
    (h : name ≠ other) :
    (t.setChild name c).getChild other = t.getChild other := by
  cases t with
  | node i cs =>
    simp [INode.setChild, INode.getChild, INode.children, INode.ino,
      findChild, h]

/-- Shape of one insertion: the counter strictly advances by at most
`#components + 1`, the issued ids are exactly the consecutive run from
`ctr + 1` up to the new counter, and the song leaf receives the last id. -/
theorem insertTrack_spec (comps : List String) (fname : String) :
    ∀ (t : INode) (ctr : Nat),
      ctr < (insertTrack t comps fname ctr).ctr ∧
      (insertTrack t comps fname ctr).ctr ≤ ctr + comps.length + 1 ∧
      (insertTrack t comps fname ctr).issued =
        List.range' (ctr + 1) ((insertTrack t comps fname ctr).ctr - ctr) ∧
      (insertTrack t comps fname ctr).leafId =
        (insertTrack t comps fname ctr).ctr := by
  induction comps with
  | nil =>
    intro t ctr
    simp [insertTrack, List.range'_one]
  | cons c rest ih =>
    intro t ctr
    cases hg : t.getChild c with
    | some child =>
      simp only [insertTrack, hg]
      obtain ⟨h1, h2, h3, h4⟩ := ih child ctr
      refine ⟨h1, by simp only [List.length_cons]; omega, h3, h4⟩
    | none =>
      simp only [insertTrack, hg]
      obtain ⟨h1, h2, h3, h4⟩ := ih (.node (ctr + 1) []) (ctr + 1)
      refine ⟨by omega, by simp only [List.length_cons]; omega, ?_, h4⟩
      rw [h3]
      have hrun : (insertTrack (INode.node (ctr + 1) []) rest fname
          (ctr + 1)).ctr - ctr =
          ((insertTrack (INode.node (ctr + 1) []) rest fname
            (ctr + 1)).ctr - (ctr + 1)) + 1 := by omega
      rw [hrun, List.range'_succ]

/-- Inserting under an already-present `artist/album` path issues exactly
one id (the leaf's). -/
theorem insertTrack_count_reuse (t : INode) (a b fname : String) (ctr : Nat)
    (h : hasDir2 t a b) :
    (insertTrack t [a, b] fname ctr).ctr = ctr + 1 := by
  obtain ⟨c, hc, hb⟩ := h
  obtain ⟨g, hg⟩ := Option.isSome_iff_exists.mp hb
  simp [insertTrack, hc, hg]

/-- Inserting under an already-present artist directory issues at most two
ids. -/
theorem insertTrack_count_artist (t : INode) (a b fname : String)
    (ctr : Nat) (h : (t.getChild a).isSome) :
    (insertTrack t [a, b] fname ctr).ctr ≤ ctr + 2 := by
  obtain ⟨c, hc⟩ := Option.isSome_iff_exists.mp h
  cases hg : c.getChild b with
  | some g => simp [insertTrack, hc, hg]
  | none => simp [insertTrack, hc, hg]

/-- After inserting `a/b/fname` the tree holds the path `a/b`. -/
theorem insertTrack_establishes (t : INode) (a b fname : String)
    (ctr : Nat) :
    hasDir2 (insertTrack t [a, b] fname ctr).tree a b := by
  cases hc : t.getChild a with
  | some child =>
    cases hg : child.getChild b with
    | some g =>
      simp only [insertTrack, hc, hg]
      exact ⟨_, getChild_setChild_same _ _ _,
        by rw [getChild_setChild_same]; rfl⟩
    | none =>
      simp only [insertTrack, hc, hg]
      exact ⟨_, getChild_setChild_same _ _ _,
        by rw [getChild_setChild_same]; rfl⟩
  | none =>
    cases hg : (INode.node (ctr + 1) ([] : List (String × INode))).getChild b
      with
    | some g =>
      simp only [insertTrack, hc, hg]
      exact ⟨_, getChild_setChild_same _ _ _,
        by rw [getChild_setChild_same]; rfl⟩
    | none =>
      simp only [insertTrack, hc, hg]
      exact ⟨_, getChild_setChild_same _ _ _,
        by rw [getChild_setChild_same]; rfl⟩

/-- Insertions never remove an existing directory path. -/
theorem insertTrack_preserves (t : INode) (a b x y fname : String)
    (ctr : Nat) (h : hasDir2 t x y) :
    hasDir2 (insertTrack t [a, b] fname ctr).tree x y := by
  obtain ⟨c, hc, hcy⟩ := h
  by_cases hax : a = x
  · subst hax
    cases hgb : c.getChild b with
    | some g =>
      simp only [insertTrack, hc, hgb]
      refine ⟨_, getChild_setChild_same _ _ _, ?_⟩
      by_cases hby : b = y
      · subst hby
        rw [getChild_setChild_same]
        rfl
      · rw [getChild_setChild_other _ _ _ _ hby]
        exact hcy
    | none =>
      simp only [insertTrack, hc, hgb]
      refine ⟨_, getChild_setChild_same _ _ _, ?_⟩
      by_cases hby : b = y
      · subst hby
        rw [getChild_setChild_same]
        rfl
      · rw [getChild_setChild_other _ _ _ _ hby]
        exact hcy
  · cases hg : t.getChild a with
    | some child =>
      simp only [insertTrack, hg]
      exact ⟨c, by rw [getChild_setChild_other _ _ _ _ hax]; exact hc, hcy⟩
    | none =>
      simp only [insertTrack, hg]
      exact ⟨c, by rw [getChild_setChild_other _ _ _ _ hax]; exact hc, hcy⟩

theorem multCount_succ (d n : Nat) :
    multCount d (n + 1) = multCount d n + (if d ∣ n then 1 else 0) := by
  cases n with
  | zero => simp [multCount]
  | succ m =>
    simp only [multCount, if_neg (Nat.succ_ne_zero _), Nat.add_sub_cancel]
    rw [Nat.succ_div]
    by_cases h : d ∣ m + 1 <;> simp [h]

theorem multCount_le_half (d n : Nat) (hd : 2 ≤ d) :
    multCount d n ≤ (n - 1) / 2 + 1 := by
  cases n with
  | zero => simp [multCount]
  | succ m =>
    simp only [multCount, if_neg (Nat.succ_ne_zero _), Nat.add_sub_cancel]
    have h : m / d ≤ m / 2 := Nat.div_le_div_left hd (by omega)
    omega

/-- The quotient is unchanged when stepping down from a non-multiple. -/
theorem div_pred_eq (d m : Nat) (hm : 1 ≤ m) (h : ¬d ∣ m) :
    m / d = (m - 1) / d := by
  have hs := Nat.succ_div (m - 1) d
  have hm1 : m - 1 + 1 = m := by omega
  rw [hm1] at hs
  rw [hs, if_neg h]
  omega

theorem rlTag_artist (tpa apa ml i : Nat) :
    (rlTag tpa apa ml i).artist = rlName ml (i / (tpa * apa)) := rfl

theorem rlTag_album (tpa apa ml i : Nat) :
    (rlTag tpa apa ml i).album = rlName ml ((i / tpa) % apa) := rfl

theorem rlTag_title (tpa apa ml i : Nat) :
    (rlTag tpa apa ml i).title = rlName ml (i % tpa) := rfl

theorem range'_append_thm (s m n : Nat) :
    List.range' s m ++ List.range' (s + m) n = List.range' s (m + n) := by
  have h := List.range'_append s m n 1
  rw [one_mul] at h
  rw [Nat.add_comm m n]
  exact h

theorem onAdd_succ (tpa apa ml n : Nat) :
    onAdd tpa apa ml (n + 1) = buildStep tpa apa ml (onAdd tpa apa ml n) n := by
  unfold onAdd
  rw [List.range_succ, List.foldl_append, List.foldl_cons, List.foldl_nil]

/-- The walk invariant: the counter stays at least 2; the issued log is the
consecutive run `[3, …, ctr]`; one leaf id per processed track, strictly
increasing and bounded by the counter; the directory path of the last
processed track is present in the tree; and the counter is bounded by
`2 + n + #album-starts + #artist-starts`. -/
theorem onAdd_invariant (tpa apa ml : Nat) (htpa : 1 ≤ tpa)
    (hapa : 1 ≤ apa) (n : Nat) :
    2 ≤ (onAdd tpa apa ml n).ctr ∧
    (onAdd tpa apa ml n).issued =
      List.range' 3 ((onAdd tpa apa ml n).ctr - 2) ∧
    (onAdd tpa apa ml n).leafIds.length = n ∧
    List.Pairwise (· < ·) (onAdd tpa apa ml n).leafIds ∧
    (∀ x ∈ (onAdd tpa apa ml n).leafIds, x ≤ (onAdd tpa apa ml n).ctr) ∧
    (1 ≤ n → hasDir2 (onAdd tpa apa ml n).tree
      (rlName ml ((n - 1) / (tpa * apa)))
      (rlName ml (((n - 1) / tpa) % apa))) ∧
    (onAdd tpa apa ml n).ctr ≤
      2 + n + multCount tpa n + multCount (tpa * apa) n := by
  induction n with
  | zero =>
    refine ⟨by simp [onAdd], by simp [onAdd], by simp [onAdd],
      by simp [onAdd], by simp [onAdd], by omega, by simp [onAdd, multCount]⟩
  | succ m ih =>
    obtain ⟨ih1, ih2, ih3, ih4, ih5, ih6, ih7⟩ := ih
    rw [onAdd_succ]
    simp only [buildStep, rlTag_artist, rlTag_album, rlTag_title]
    obtain ⟨g1, g2, g3, g4⟩ := insertTrack_spec
      [rlName ml (m / (tpa * apa)), rlName ml ((m / tpa) % apa)]
      (rlName ml (m % tpa) ++ ".mp3") (onAdd tpa apa ml m).tree
      (onAdd tpa apa ml m).ctr
    simp only [List.length_cons, List.length_nil] at g2
    refine ⟨by omega, ?_, ?_, ?_, ?_, ?_, ?_⟩
    · rw [ih2, g3]
      have e1 : (onAdd tpa apa ml m).ctr + 1 =
          3 + ((onAdd tpa apa ml m).ctr - 2) := by omega
      have e2 : (insertTrack (onAdd tpa apa ml m).tree
          [rlName ml (m / (tpa * apa)), rlName ml ((m / tpa) % apa)]
          (rlName ml (m % tpa) ++ ".mp3") (onAdd tpa apa ml m).ctr).ctr - 2 =
          ((onAdd tpa apa ml m).ctr - 2) +
          ((insertTrack (onAdd tpa apa ml m).tree
            [rlName ml (m / (tpa * apa)), rlName ml ((m / tpa) % apa)]
            (rlName ml (m % tpa) ++ ".mp3") (onAdd tpa apa ml m).ctr).ctr -
            (onAdd tpa apa ml m).ctr) := by omega
      rw [e1, e2, range'_append_thm]
    · simp [ih3]
    · rw [List.pairwise_append]
      refine ⟨ih4, List.pairwise_singleton _ _, ?_⟩
      intro a ha b hb
      simp only [List.mem_singleton] at hb
      subst hb
      rw [g4]
      exact lt_of_le_of_lt (ih5 a ha) g1
    · intro x hx
      rw [List.mem_append] at hx
      rcases hx with hx | hx
      · exact le_trans (ih5 x hx) (by omega)
      · simp only [List.mem_singleton] at hx
        subst hx
        rw [g4]
    · intro _
      simp only [Nat.add_sub_cancel]
      exact insertTrack_establishes _ _ _ _ _
    · rw [multCount_succ, multCount_succ]
      by_cases hd2 : tpa * apa ∣ m
      · have hd1 : tpa ∣ m := dvd_trans (Dvd.intro apa rfl) hd2
        rw [if_pos hd1, if_pos hd2]
        omega
      · have hm1 : 1 ≤ m := by
          rcases Nat.eq_zero_or_pos m with h0 | h0
          · exact absurd (h0 ▸ Nat.dvd_zero _) hd2
          · exact h0
        rw [if_neg hd2]
        have hart : m / (tpa * apa) = (m - 1) / (tpa * apa) :=
          div_pred_eq _ _ hm1 hd2
        by_cases hd1 : tpa ∣ m
        · rw [if_pos hd1]
          obtain ⟨c, hc, _⟩ := ih6 hm1
          have hcount := insertTrack_count_artist (onAdd tpa apa ml m).tree
            (rlName ml (m / (tpa * apa))) (rlName ml ((m / tpa) % apa))
            (rlName ml (m % tpa) ++ ".mp3") (onAdd tpa apa ml m).ctr
            (by rw [hart, hc]; rfl)
          omega
        · rw [if_neg hd1]
          have hq : m / tpa = (m - 1) / tpa := div_pred_eq _ _ hm1 hd1
          have halb : (m / tpa) % apa = ((m - 1) / tpa) % apa := by rw [hq]
          have hart2 : m / (tpa * apa) = (m - 1) / (tpa * apa) := by
            rw [← Nat.div_div_eq_div_mul, hq, Nat.div_div_eq_div_mul]
          have hcount := insertTrack_count_reuse (onAdd tpa apa ml m).tree
            (rlName ml (m / (tpa * apa))) (rlName ml ((m / tpa) % apa))
            (rlName ml (m % tpa) ++ ".mp3") (onAdd tpa apa ml m).ctr
            (by rw [hart2, halb]; exact ih6 hm1)
          omega

/-- Corrected C7.  For every library of `N ≥ 1` tracks with shape
parameters ≥ 1, after the tree materializer walks indices `0..N-1`: every
node identifier issued is unique and strictly increasing (never reused) and
the number of leaf identifiers equals `N` (all distinct).  The bound "max
identifier < 2N plus the small reserved offset" additionally requires
`tracksPerAlbum ≥ 2`: with `tracksPerAlbum ≥ 2` every issued identifier is
below `2N + 4`, comfortably inside 32 bits, but with
`tracksPerAlbum = 1` the walk issues up to `3N + 2` (see the
counterexample). -/
theorem claim_C7_inode_ids (tpa apa ml n : Nat) (htpa : 1 ≤ tpa)
    (hapa : 1 ≤ apa) (hn : 1 ≤ n) :
    List.Pairwise (· < ·) (onAdd tpa apa ml n).issued ∧
    (onAdd tpa apa ml n).issued.Nodup ∧
    (onAdd tpa apa ml n).leafIds.length = n ∧
    List.Pairwise (· < ·) (onAdd tpa apa ml n).leafIds ∧
    (onAdd tpa apa ml n).leafIds.Nodup ∧
    (2 ≤ tpa → ∀ x ∈ (onAdd tpa apa ml n).issued, x < 2 * n + 4) := by
  obtain ⟨h1, h2, h3, h4, h5, _, h7⟩ := onAdd_invariant tpa apa ml htpa hapa n
  have hpair : List.Pairwise (· < ·) (onAdd tpa apa ml n).issued := by
    rw [h2]
    exact List.pairwise_lt_range' 3 _ 1
  refine ⟨hpair, hpair.imp Nat.ne_of_lt, h3, h4, h4.imp Nat.ne_of_lt,
    fun htpa2 x hx => ?_⟩
  rw [h2, List.mem_range'_1] at hx
  have hb1 : multCount tpa n ≤ (n - 1) / 2 + 1 :=
    multCount_le_half tpa n htpa2
  have hb2 : multCount (tpa * apa) n ≤ (n - 1) / 2 + 1 :=
    multCount_le_half (tpa * apa) n
      (le_trans htpa2 (Nat.le_mul_of_pos_right tpa (by omega)))
  omega

/-- Witness for the corrected C7 at a concrete shape
(`tracksPerAlbum = 2`, `albumsPerArtist = 1`, two tracks). -/
theorem claim_C7_witness :
    (onAdd 2 1 0 2).leafIds.length = 2 ∧
    ∀ x ∈ (onAdd 2 1 0 2).issued, x < 2 * 2 + 4 := by
  have h := claim_C7_inode_ids 2 1 0 2 (by decide) (by decide) (by decide)
  exact ⟨h.2.2.1, h.2.2.2.2.2 (by decide)⟩

set_option maxRecDepth 40000 in
/-- Counterexample to C7's identifier bound as stated for all shape
parameters ≥ 1: with `tracksPerAlbum = 1` and `albumsPerArtist = 1` every
track gets its own artist and album directory, so a 100-track walk issues
identifiers up to 302 = 3·100 + 2, far beyond `2N` plus any small reserved
offset (here checked against offset 50). -/
theorem claim_C7_counterexample :
    302 ∈ (onAdd 1 1 0 100).issued ∧ ¬(302 < 2 * 100 + 50) := by decide

end Fakelib
